import Mathlib

/-!
Verification of the product categorizer (src/categorizador.js).

The JavaScript source operates on strings; we embed a string as a `List Char`
of Unicode scalar values.  The three core functions of the source,
`normalizeTitle`, `generateProductKey` and `categorizeProducts`, are
translated definition-by-definition below.  Unicode-dependent primitives of
the JavaScript runtime (`toLowerCase`, `normalize('NFD')`, the `\s` character
class) are modelled by explicit tables over the Latin repertoire the program
works with (ASCII plus Latin-1 accented letters and the combining marks
U+0300..U+036F); outside the tables the primitives act as the identity,
exactly as the runtime does on unaccented characters.
-/

namespace Categorizador

/-! ## Character model -/

/-- The character set matched by the JavaScript regular-expression class `\s`
(and removed by `String.prototype.trim`). -/
def wsEnum : List Char :=
  [' ', '\t', '\n', Char.ofNat 11, Char.ofNat 12, '\r',
   Char.ofNat 0xa0, Char.ofNat 0x1680,
   Char.ofNat 0x2000, Char.ofNat 0x2001, Char.ofNat 0x2002, Char.ofNat 0x2003,
   Char.ofNat 0x2004, Char.ofNat 0x2005, Char.ofNat 0x2006, Char.ofNat 0x2007,
   Char.ofNat 0x2008, Char.ofNat 0x2009, Char.ofNat 0x200a,
   Char.ofNat 0x2028, Char.ofNat 0x2029, Char.ofNat 0x202f,
   Char.ofNat 0x205f, Char.ofNat 0x3000, Char.ofNat 0xfeff]

/-- JavaScript whitespace test (`\s`). -/
def isWs (c : Char) : Bool := wsEnum.elem c

/-- Combining diacritical marks, the range `[̀-ͯ]` removed by
`normalizeTitle`. -/
def isMark (c : Char) : Bool := 0x300 ≤ c.toNat && c.toNat ≤ 0x36f

/-- Lookup in an association table keyed by characters. -/
def tblFind {β : Type} : List (Char × β) → Char → Option β
  | [], _ => none
  | (k, v) :: rest, c => if c == k then some v else tblFind rest c

/-- Case-mapping table of `String.prototype.toLowerCase` restricted to the
repertoire the categorizer works with: ASCII letters and the Latin-1
accented capitals. -/
def lowerTable : List (Char × Char) :=
  [('A', 'a'), ('B', 'b'), ('C', 'c'), ('D', 'd'), ('E', 'e'), ('F', 'f'),
   ('G', 'g'), ('H', 'h'), ('I', 'i'), ('J', 'j'), ('K', 'k'), ('L', 'l'),
   ('M', 'm'), ('N', 'n'), ('O', 'o'), ('P', 'p'), ('Q', 'q'), ('R', 'r'),
   ('S', 's'), ('T', 't'), ('U', 'u'), ('V', 'v'), ('W', 'w'), ('X', 'x'),
   ('Y', 'y'), ('Z', 'z'),
   ('À', 'à'), ('Á', 'á'), ('Â', 'â'), ('Ã', 'ã'), ('Ä', 'ä'), ('Å', 'å'),
   ('Ç', 'ç'), ('È', 'è'), ('É', 'é'), ('Ê', 'ê'), ('Ë', 'ë'),
   ('Ì', 'ì'), ('Í', 'í'), ('Î', 'î'), ('Ï', 'ï'), ('Ñ', 'ñ'),
   ('Ò', 'ò'), ('Ó', 'ó'), ('Ô', 'ô'), ('Õ', 'õ'), ('Ö', 'ö'),
   ('Ù', 'ù'), ('Ú', 'ú'), ('Û', 'û'), ('Ü', 'ü')]

/-- Model of `toLowerCase`, character by character. -/
def lowerChar (c : Char) : Char := (tblFind lowerTable c).getD c

/-- Canonical-decomposition table of `String.prototype.normalize('NFD')` on
the lowercase Latin-1 accented letters.  The program only ever decomposes
strings that have already been lowercased, so the lowercase rows suffice. -/
def nfdTable : List (Char × List Char) :=
  [('à', ['a', Char.ofNat 0x300]), ('á', ['a', Char.ofNat 0x301]),
   ('â', ['a', Char.ofNat 0x302]), ('ã', ['a', Char.ofNat 0x303]),
   ('ä', ['a', Char.ofNat 0x308]), ('å', ['a', Char.ofNat 0x30a]),
   ('ç', ['c', Char.ofNat 0x327]),
   ('è', ['e', Char.ofNat 0x300]), ('é', ['e', Char.ofNat 0x301]),
   ('ê', ['e', Char.ofNat 0x302]), ('ë', ['e', Char.ofNat 0x308]),
   ('ì', ['i', Char.ofNat 0x300]), ('í', ['i', Char.ofNat 0x301]),
   ('î', ['i', Char.ofNat 0x302]), ('ï', ['i', Char.ofNat 0x308]),
   ('ñ', ['n', Char.ofNat 0x303]),
   ('ò', ['o', Char.ofNat 0x300]), ('ó', ['o', Char.ofNat 0x301]),
   ('ô', ['o', Char.ofNat 0x302]), ('õ', ['o', Char.ofNat 0x303]),
   ('ö', ['o', Char.ofNat 0x308]),
   ('ù', ['u', Char.ofNat 0x300]), ('ú', ['u', Char.ofNat 0x301]),
   ('û', ['u', Char.ofNat 0x302]), ('ü', ['u', Char.ofNat 0x308])]

/-- NFD decomposition, character by character. -/
def nfdChar (c : Char) : List Char := (tblFind nfdTable c).getD [c]

/-! ## String primitives used by the source -/

/-- Test `startsWith p s`: the list `s` begins with `p`. -/
def startsWith : List Char → List Char → Bool
  | [], _ => true
  | _ :: _, [] => false
  | a :: p', c :: s' => a == c && startsWith p' s'

/-- Model of `String.prototype.includes`: `includes s p` tests whether `p` occurs as a
contiguous substring of `s`. -/
def includes (s p : List Char) : Bool :=
  match s with
  | [] => startsWith p []
  | _ :: rest => startsWith p s || includes rest p

/-- Occurrence predicate: `p` occurs as a contiguous substring of `s`. -/
def Occurs (p s : List Char) : Prop := ∃ u v, s = u ++ p ++ v

/-- Worker for `replaceAll`.  The counter skips over the remainder of a
pattern occurrence that has just been replaced, which keeps the recursion
structural in the list argument. -/
def replAux (p r : List Char) : Nat → List Char → List Char
  | _, [] => []
  | n + 1, _ :: rest => replAux p r n rest
  | 0, c :: rest =>
    if startsWith p (c :: rest) then r ++ replAux p r (p.length - 1) rest
    else c :: replAux p r 0 rest

/-- Model of `String.prototype.replace` with a global literal pattern: replaces the
non-overlapping leftmost occurrences of `p` by `r`, scanning left to right
and resuming after each replaced occurrence. -/
def replaceAll (p r s : List Char) : List Char := replAux p r 0 s

/-- Worker for `collapseWs`; the flag records whether the scan is inside a
whitespace run whose leading character has already been emitted as `' '`. -/
def collapseAux : Bool → List Char → List Char
  | _, [] => []
  | inRun, c :: rest =>
    if isWs c then
      if inRun then collapseAux true rest else ' ' :: collapseAux true rest
    else c :: collapseAux false rest

/-- Model of `replace(/\s+/g, ' ')`: every maximal whitespace run becomes one space. -/
def collapseWs (s : List Char) : List Char := collapseAux false s

/-- Strip trailing JavaScript whitespace. -/
def dropTrail (s : List Char) : List Char := ((s.reverse).dropWhile isWs).reverse

/-- Model of `String.prototype.trim`. -/
def trimWs (s : List Char) : List Char := dropTrail (s.dropWhile isWs)

/-- Model of `replace(/[-]/g, ' ')`, character by character. -/
def hyphenToSpace (c : Char) : Char := if c == '-' then ' ' else c

/-! ## The normalizer (source lines 56-66) -/

/-- Pattern `litro` of the unit replacement. -/
def litroP : List Char := "litro".toList

/-- Replacement for `litro`. -/
def litroR : List Char := "l".toList

/-- Pattern `quilo` of the unit replacement. -/
def quiloP : List Char := "quilo".toList

/-- Replacement for `quilo`. -/
def quiloR : List Char := "kg".toList

/-- Steps 1-3 of the normalizer: `toLowerCase`, `normalize('NFD')` and the
removal of the combining marks `[̀-ͯ]`. -/
def caseAccentFold (t : List Char) : List Char :=
  ((t.map lowerChar).flatMap nfdChar).filter (fun c => !(isMark c))

/-- The normalizer `normalizeTitle` (source lines 56-66): lowercase, NFD plus mark removal,
hyphens to spaces, whitespace-run collapse, `litro`→`l`, `quilo`→`kg`,
trim — applied in exactly the source's order. -/
def normalizeTitle (t : List Char) : List Char :=
  trimWs (replaceAll quiloP quiloR (replaceAll litroP litroR
    (collapseWs ((caseAccentFold t).map hyphenToSpace))))

/-! ## The key extractor (source lines 73-140) -/

/-- Unit letters of the size pattern `[kgl]` under the `i` flag. -/
def unitEnum : List Char := ['k', 'g', 'l', 'K', 'G', 'L']

/-- Membership in the (case-insensitive) regex class `[kgl]`. -/
def isSizeUnit (c : Char) : Bool := unitEnum.elem c

/-- Attempt of the pattern `(\d+)\s*([kgl])` at the start of `s`.  The
regex's `\d+` is greedy; backtracking it cannot create a match that the
greedy attempt misses, because neither `\s` nor `[kgl]` accepts a digit, so
taking the full digit run and the full whitespace run is faithful. -/
def trySizeAt (s : List Char) : Option (List Char × Char) :=
  let digits := s.takeWhile Char.isDigit
  match (s.dropWhile Char.isDigit).dropWhile isWs with
  | [] => none
  | u :: _ => if isSizeUnit u then some (digits, u) else none

/-- Model of `normalizedTitle.match(/(\d+)\s*([kgl])/i)`: leftmost match of the size
pattern, returning the digit group and the unit letter. -/
def matchSize : List Char → Option (List Char × Char)
  | [] => none
  | c :: rest =>
    if Char.isDigit c then
      match trySizeAt (c :: rest) with
      | some m => some m
      | none => matchSize rest
    else matchSize rest

/-- The size token: digits concatenated with the lowercased unit letter, or
the empty token when the pattern has no match (source lines 131-136). -/
def sizeToken (t : List Char) : List Char :=
  match matchSize t with
  | some du => du.1 ++ [lowerChar du.2]
  | none => []

/-- The four extracted features of `generateProductKey`. -/
structure Features where
  productType : List Char
  brand : List Char
  variant : List Char
  size : List Char
  deriving DecidableEq

/-- Marker word `leite`. -/
def mLeite : List Char := "leite".toList

/-- Marker word `integral`. -/
def mIntegral : List Char := "integral".toList

/-- Marker phrase `semi desnatado`. -/
def mSemiDesnatado : List Char := "semi desnatado".toList

/-- Marker phrase `semi-desnatado`. -/
def mSemiDesnatadoHyphen : List Char := "semi-desnatado".toList

/-- Marker word `desnatado`. -/
def mDesnatado : List Char := "desnatado".toList

/-- Marker word `piracanjuba`. -/
def mPiracanjuba : List Char := "piracanjuba".toList

/-- Marker word `italac`. -/
def mItalac : List Char := "italac".toList

/-- Marker word `parmalat`. -/
def mParmalat : List Char := "parmalat".toList

/-- Marker word `arroz`. -/
def mArroz : List Char := "arroz".toList

/-- Marker word `branco`. -/
def mBranco : List Char := "branco".toList

/-- Marker phrase `tio joao`. -/
def mTioJoao : List Char := "tio joao".toList

/-- Marker word `feijao`. -/
def mFeijao : List Char := "feijao".toList

/-- Marker word `feijão`, the accented spelling tested by the source. -/
def mFeijaoTilde : List Char := "feijão".toList

/-- Marker word `carioca`. -/
def mCarioca : List Char := "carioca".toList

/-- Marker word `camil`. -/
def mCamil : List Char := "camil".toList

/-- The branch structure of `generateProductKey` (source lines 73-136):
a priority chain over the product types, variant and brand chains inside the
matched type's branch, and the size scan performed on every path. -/
def extractFeatures (t : List Char) : Features :=
  if includes t mLeite then
    { productType := mLeite
      variant :=
        if includes t mIntegral then mIntegral
        else if includes t mSemiDesnatado || includes t mSemiDesnatadoHyphen then mSemiDesnatado
        else if includes t mDesnatado then mDesnatado
        else []
      brand :=
        if includes t mPiracanjuba then mPiracanjuba
        else if includes t mItalac then mItalac
        else if includes t mParmalat then mParmalat
        else []
      size := sizeToken t }
  else if includes t mArroz then
    { productType := mArroz
      variant :=
        if includes t mBranco then mBranco
        else if includes t mIntegral then mIntegral
        else []
      brand := if includes t mTioJoao then mTioJoao else []
      size := sizeToken t }
  else if includes t mFeijao || includes t mFeijaoTilde then
    { productType := mFeijao
      variant := if includes t mCarioca then mCarioca else []
      brand := if includes t mCamil then mCamil else []
      size := sizeToken t }
  else
    { productType := [], brand := [], variant := [], size := sizeToken t }

/-- The template `` `${productType}-${brand}-${variant}-${size}` ``. -/
def joinKey (f : Features) : List Char :=
  f.productType ++ '-' :: (f.brand ++ '-' :: (f.variant ++ '-' :: f.size))

/-- The key extractor `generateProductKey` (source lines 73-140). -/
def generateProductKey (t : List Char) : List Char := joinKey (extractFeatures t)

/-! ## The aggregator (source lines 13-49) -/

/-- An input product record.  The `id` field stands for the extra fields of
the input records, which the source drops when building `productInfo`. -/
structure Product where
  title : List Char
  supermarket : List Char
  id : Nat := 0
  deriving DecidableEq

/-- The `productInfo` object built for each record (title and supermarket,
without `id`). -/
structure ProductInfo where
  title : List Char
  supermarket : List Char
  deriving DecidableEq

/-- A bucket stored in the `categoriesMap`: the representative title and the
accumulated member list. -/
structure RawCategory where
  category : List Char
  products : List ProductInfo
  deriving DecidableEq

/-- An output category record `{category, count, products}`. -/
structure Category where
  category : List Char
  count : Nat
  products : List ProductInfo
  deriving DecidableEq

/-- Construction of the `productInfo` object. -/
def toInfo (p : Product) : ProductInfo := ⟨p.title, p.supermarket⟩

/-- The grouping key of a record. -/
def keyOf (p : Product) : List Char := generateProductKey (normalizeTitle p.title)

/-- Insertion into the `categoriesMap`: append the member to the existing
bucket of `key`, or append a fresh bucket at the end (JavaScript `Map`
iteration follows insertion order). -/
def addProduct (key : List Char) (info : ProductInfo) (title : List Char) :
    List (List Char × RawCategory) → List (List Char × RawCategory)
  | [] => [(key, ⟨title, [info]⟩)]
  | (k, b) :: rest =>
    if k = key then (k, ⟨b.category, b.products ++ [info]⟩) :: rest
    else (k, b) :: addProduct key info title rest

/-- One iteration of the `products.forEach` loop. -/
def categorizeStep (m : List (List Char × RawCategory)) (p : Product) :
    List (List Char × RawCategory) :=
  addProduct (keyOf p) (toInfo p) p.title m

/-- The aggregator `categorizeProducts` (source lines 13-49): fold the records through the
map, then flatten the buckets to `{category, count, products}` records. -/
def categorizeProducts (ps : List Product) : List Category :=
  (ps.foldl categorizeStep []).map fun kb =>
    ⟨kb.2.category, kb.2.products.length, kb.2.products⟩

/-! ## Auxiliary definitions used to state the claims -/

/-- The normalizer with the spec's step order: the unit replacements
`litro`→`l` and `quilo`→`kg` before the whitespace collapse (the source
collapses first).  Compared with `normalizeTitle` for claim C8. -/
def normalizeSpecOrder (t : List Char) : List Char :=
  trimWs (collapseWs (replaceAll quiloP quiloR (replaceAll litroP litroR
    ((caseAccentFold t).map hyphenToSpace))))

/-- Variant of `extractFeatures` with the disjunct testing the accented spelling
`feijão` deleted from the `feijao` rule; compared with `extractFeatures`
for claim C10. -/
def extractFeaturesNoTilde (t : List Char) : Features :=
  if includes t mLeite then
    { productType := mLeite
      variant :=
        if includes t mIntegral then mIntegral
        else if includes t mSemiDesnatado || includes t mSemiDesnatadoHyphen then mSemiDesnatado
        else if includes t mDesnatado then mDesnatado
        else []
      brand :=
        if includes t mPiracanjuba then mPiracanjuba
        else if includes t mItalac then mItalac
        else if includes t mParmalat then mParmalat
        else []
      size := sizeToken t }
  else if includes t mArroz then
    { productType := mArroz
      variant :=
        if includes t mBranco then mBranco
        else if includes t mIntegral then mIntegral
        else []
      brand := if includes t mTioJoao then mTioJoao else []
      size := sizeToken t }
  else if includes t mFeijao then
    { productType := mFeijao
      variant := if includes t mCarioca then mCarioca else []
      brand := if includes t mCamil then mCamil else []
      size := sizeToken t }
  else
    { productType := [], brand := [], variant := [], size := sizeToken t }

/-- The key extractor built on `extractFeaturesNoTilde` (claim C10). -/
def generateProductKeyNoTilde (t : List Char) : List Char :=
  joinKey (extractFeaturesNoTilde t)

/-- The keys of the records in first-seen order. -/
def firstSeenKeys (ps : List Product) : List (List Char) :=
  (ps.map keyOf).foldl (fun acc k => if k ∈ acc then acc else acc ++ [k]) []

/-- The members a key collects: the records with that key, in input order. -/
def membersOf (ps : List Product) (k : List Char) : List ProductInfo :=
  (ps.filter fun p => keyOf p == k).map toInfo

/-- The representative title of a key: the original title of the first
record with that key. -/
def repTitleOf (ps : List Product) (k : List Char) : List Char :=
  match ps.filter fun p => keyOf p == k with
  | [] => []
  | p :: _ => p.title

/-- The category a key should produce according to the aggregation claims:
representative title of the first record seen for the key, members in input
order, count equal to the member count. -/
def categoryFor (ps : List Product) (k : List Char) : Category :=
  ⟨repTitleOf ps k, (membersOf ps k).length, membersOf ps k⟩

/-- Characters that can appear in the output of `normalizeTitle`: fixed by
lowercasing, NFD-trivial, not a combining mark and not a hyphen. -/
abbrev GoodOut (c : Char) : Prop :=
  lowerChar c = c ∧ nfdChar c = [c] ∧ isMark c = false ∧ c ≠ '-'

/-- Canonical whitespace shape: every whitespace character is a plain space
and no two adjacent characters are both spaces. -/
def WsCanon (s : List Char) : Prop :=
  (∀ c ∈ s, isWs c = true → c = ' ') ∧
    List.Chain' (fun a b => ¬(a = ' ' ∧ b = ' ')) s

/-- A decomposition witnessing an occurrence of the size pattern
`(\d+)\s*([kgl])` (case-insensitive) in `t`. -/
def HasSizeOcc (t : List Char) : Prop :=
  ∃ a d w u b, t = a ++ d ++ w ++ u :: b ∧ d ≠ [] ∧
    (∀ c ∈ d, Char.isDigit c = true) ∧ (∀ c ∈ w, isWs c = true) ∧
    isSizeUnit u = true

/-! Quick sanity checks of the embedding on concrete data (mirroring the
spec's end-to-end example). -/

example : normalizeTitle ("Leite Integral Piracanjuba 1L").toList =
    ("leite integral piracanjuba 1l").toList := by decide

example : generateProductKey (normalizeTitle ("Leite Integral Piracanjuba 1L").toList) =
    ("leite-piracanjuba-integral-1l").toList := by decide

example : generateProductKey (normalizeTitle ("leite íntegral piracanjuba 1l").toList) =
    ("leite-piracanjuba-integral-1l").toList := by decide

example : sizeToken (normalizeTitle ("1 Quilo").toList) = ("1k").toList := by decide

example : normalizeTitle (normalizeTitle ("litroitro").toList) ≠
    normalizeTitle ("litroitro").toList := by decide

/-! ## Basic lemmas about the string primitives -/

theorem startsWith_iff (p s : List Char) :
    startsWith p s = true ↔ ∃ v, s = p ++ v := by
  induction p generalizing s with
  | nil => simp [startsWith]
  | cons a p' ih =>
    cases s with
    | nil => simp [startsWith]
    | cons c s' =>
      simp only [startsWith, Bool.and_eq_true, beq_iff_eq, ih, List.cons_append,
        List.cons.injEq]
      constructor
      · rintro ⟨rfl, v, rfl⟩; exact ⟨v, rfl, rfl⟩
      · rintro ⟨v, rfl, rfl⟩; exact ⟨rfl, v, rfl⟩

theorem includes_iff (s p : List Char) : includes s p = true ↔ Occurs p s := by
  induction s with
  | nil =>
    show startsWith p [] = true ↔ _
    rw [startsWith_iff]
    constructor
    · rintro ⟨v, hv⟩
      exact ⟨[], v, by simpa using hv⟩
    · rintro ⟨u, v, hv⟩
      refine ⟨v, ?_⟩
      have hu : u = [] ∧ p ++ v = [] := by simpa using hv.symm
      exact hu.2.symm
  | cons c rest ih =>
    show (startsWith p (c :: rest) || includes rest p) = true ↔ _
    rw [Bool.or_eq_true, startsWith_iff, ih]
    constructor
    · rintro (⟨v, hv⟩ | ⟨u, v, rfl⟩)
      · exact ⟨[], v, by simpa using hv⟩
      · exact ⟨c :: u, v, rfl⟩
    · rintro ⟨u, v, hv⟩
      cases u with
      | nil => exact Or.inl ⟨v, by simpa using hv⟩
      | cons x u' =>
        simp only [List.cons_append, List.cons.injEq] at hv
        exact Or.inr ⟨u', v, hv.2⟩

theorem Occurs.mem {p s : List Char} {c : Char} (h : Occurs p s) (hc : c ∈ p) :
    c ∈ s := by
  obtain ⟨u, v, rfl⟩ := h
  simp [hc]

theorem not_occurs_of_includes_false {s p : List Char}
    (h : includes s p = false) : ¬ Occurs p s := by
  intro hocc
  rw [(includes_iff s p).mpr hocc] at h
  cases h

/-! ## Rewrite equations for `replaceAll` and `collapseWs` -/

theorem replAux_eq (p r : List Char) :
    ∀ (t : List Char) (n : Nat), replAux p r n t = replaceAll p r (t.drop n) := by
  intro t
  induction t with
  | nil => intro n; cases n <;> simp [replAux, replaceAll]
  | cons c rest ih =>
    intro n
    cases n with
    | zero => simp [replaceAll]
    | succ n =>
      show replAux p r n rest = _
      rw [ih n, List.drop_succ_cons]

theorem replaceAll_nil (p r : List Char) : replaceAll p r [] = [] := by
  simp [replaceAll, replAux]

theorem replaceAll_cons (p r : List Char) (c : Char) (rest : List Char) :
    replaceAll p r (c :: rest) =
      if startsWith p (c :: rest) then
        r ++ replaceAll p r (rest.drop (p.length - 1))
      else c :: replaceAll p r rest := by
  show replAux p r 0 (c :: rest) = _
  rw [show replAux p r 0 (c :: rest) =
      (if startsWith p (c :: rest) then r ++ replAux p r (p.length - 1) rest
       else c :: replAux p r 0 rest) from rfl]
  rw [replAux_eq, replAux_eq, List.drop_zero]

theorem replaceAll_append (p r t : List Char) (hp : p ≠ []) :
    replaceAll p r (p ++ t) = r ++ replaceAll p r t := by
  cases p with
  | nil => exact absurd rfl hp
  | cons a p' =>
    rw [List.cons_append, replaceAll_cons, if_pos]
    · have : (a :: p').length - 1 = p'.length := by simp
      rw [this, List.drop_left]
    · exact (startsWith_iff _ _).mpr ⟨t, by simp⟩

theorem replaceAll_of_not_occurs (p r : List Char) :
    ∀ s, ¬ Occurs p s → replaceAll p r s = s := by
  intro s
  induction s with
  | nil => intro _; exact replaceAll_nil p r
  | cons c rest ih =>
    intro h
    have h1 : ¬ startsWith p (c :: rest) = true := by
      intro hsw
      obtain ⟨v, hv⟩ := (startsWith_iff p (c :: rest)).mp hsw
      exact h ⟨[], v, by simpa using hv⟩
    have h2 : ¬ Occurs p rest := by
      rintro ⟨u, v, rfl⟩
      exact h ⟨c :: u, v, rfl⟩
    rw [replaceAll_cons, if_neg h1, ih h2]

theorem mem_replaceAll (p r : List Char) :
    ∀ s, ∀ c ∈ replaceAll p r s, c ∈ s ∨ c ∈ r := by
  suffices h : ∀ n s, s.length ≤ n → ∀ c ∈ replaceAll p r s, c ∈ s ∨ c ∈ r by
    intro s; exact h s.length s le_rfl
  intro n
  induction n with
  | zero =>
    intro s hs c hc
    have hnil : s = [] := List.length_eq_zero.mp (Nat.le_zero.mp hs)
    subst hnil
    rw [replaceAll_nil] at hc
    cases hc
  | succ n ih =>
    intro s hs c hc
    cases s with
    | nil => rw [replaceAll_nil] at hc; cases hc
    | cons a rest =>
      have hrest : rest.length ≤ n := by
        simpa using Nat.le_of_succ_le_succ hs
      rw [replaceAll_cons] at hc
      by_cases hsw : startsWith p (a :: rest) = true
      · rw [if_pos hsw] at hc
        rcases List.mem_append.mp hc with hr | hrec
        · exact Or.inr hr
        · have hlen : (rest.drop (p.length - 1)).length ≤ n := by
            calc (rest.drop (p.length - 1)).length ≤ rest.length :=
                  (List.drop_sublist _ _).length_le
              _ ≤ n := hrest
          rcases ih _ hlen c hrec with hs' | hr
          · exact Or.inl (List.mem_cons_of_mem _ (List.mem_of_mem_drop hs'))
          · exact Or.inr hr
      · rw [if_neg hsw] at hc
        rcases List.mem_cons.mp hc with rfl | hrec
        · exact Or.inl (List.mem_cons_self _ _)
        · rcases ih rest hrest c hrec with h1 | h2
          · exact Or.inl (List.mem_cons_of_mem _ h1)
          · exact Or.inr h2

theorem collapseAux_true (s : List Char) :
    collapseAux true s = collapseAux false (s.dropWhile isWs) := by
  induction s with
  | nil => rfl
  | cons c rest ih =>
    by_cases h : isWs c = true
    · simp only [collapseAux, h, if_true, List.dropWhile_cons, ih]
    · simp only [collapseAux, h, Bool.false_eq_true, if_false, List.dropWhile_cons]

theorem collapseWs_nil : collapseWs [] = [] := rfl

theorem collapseWs_cons (c : Char) (rest : List Char) :
    collapseWs (c :: rest) =
      if isWs c then ' ' :: collapseWs (rest.dropWhile isWs)
      else c :: collapseWs rest := by
  show collapseAux false (c :: rest) = _
  by_cases h : isWs c = true
  · simp only [collapseAux, h, if_true, Bool.false_eq_true, if_false,
      collapseAux_true, collapseWs]
  · simp only [collapseAux, h, Bool.false_eq_true, if_false, collapseWs]

theorem mem_collapseWs :
    ∀ s : List Char, ∀ c ∈ collapseWs s, c = ' ' ∨ c ∈ s := by
  suffices h : ∀ n s, s.length ≤ n → ∀ c ∈ collapseWs s, c = ' ' ∨ c ∈ s by
    intro s; exact h s.length s le_rfl
  intro n
  induction n with
  | zero =>
    intro s hs c hc
    have hnil : s = [] := List.length_eq_zero.mp (Nat.le_zero.mp hs)
    subst hnil
    cases hc
  | succ n ih =>
    intro s hs c hc
    cases s with
    | nil => cases hc
    | cons a rest =>
      have hrest : rest.length ≤ n := by
        simpa using Nat.le_of_succ_le_succ hs
      rw [collapseWs_cons] at hc
      by_cases hw : isWs a = true
      · rw [if_pos hw] at hc
        rcases List.mem_cons.mp hc with rfl | hrec
        · exact Or.inl rfl
        · have hlen : (rest.dropWhile isWs).length ≤ n :=
            le_trans (List.dropWhile_sublist _).length_le hrest
          rcases ih _ hlen c hrec with h1 | h2
          · exact Or.inl h1
          · exact Or.inr (List.mem_cons_of_mem _ ((List.dropWhile_sublist _).subset h2))
      · rw [if_neg hw] at hc
        rcases List.mem_cons.mp hc with rfl | hrec
        · exact Or.inr (List.mem_cons_self _ _)
        · rcases ih rest hrest c hrec with h1 | h2
          · exact Or.inl h1
          · exact Or.inr (List.mem_cons_of_mem _ h2)

/-! ## Characters of the normalizer's output -/

theorem tblFind_mem_snd {β : Type} :
    ∀ (tbl : List (Char × β)) (c : Char) (v : β),
      tblFind tbl c = some v → v ∈ tbl.map Prod.snd := by
  intro tbl
  induction tbl with
  | nil => intro c v h; cases h
  | cons kv rest ih =>
    intro c v h
    obtain ⟨k, w⟩ := kv
    rw [tblFind] at h
    by_cases hk : (c == k) = true
    · rw [if_pos hk] at h
      injection h with h
      subst h
      simp
    · rw [if_neg hk] at h
      simpa using Or.inr (ih c v h)

theorem goodChar_lower_values :
    ∀ v ∈ lowerTable.map Prod.snd,
      ∀ d ∈ (nfdChar v).filter (fun x => !(isMark x)),
        lowerChar d = d ∧ nfdChar d = [d] := by decide

theorem goodChar_nfd_values :
    ∀ ds ∈ nfdTable.map Prod.snd,
      ∀ d ∈ ds.filter (fun x => !(isMark x)),
        lowerChar d = d ∧ nfdChar d = [d] := by decide

theorem charPipeGood (c : Char) :
    ∀ d ∈ (nfdChar (lowerChar c)).filter (fun x => !(isMark x)),
      lowerChar d = d ∧ nfdChar d = [d] := by
  intro d hd
  cases hl : tblFind lowerTable c with
  | some v =>
    have hv : lowerChar c = v := by simp [lowerChar, hl]
    rw [hv] at hd
    exact goodChar_lower_values v (tblFind_mem_snd _ _ _ hl) d hd
  | none =>
    have hv : lowerChar c = c := by simp [lowerChar, hl]
    rw [hv] at hd
    cases hn : tblFind nfdTable c with
    | some ds =>
      have hds : nfdChar c = ds := by simp [nfdChar, hn]
      rw [hds] at hd
      exact goodChar_nfd_values ds (tblFind_mem_snd _ _ _ hn) d hd
    | none =>
      have hnc : nfdChar c = [c] := by simp [nfdChar, hn]
      rw [hnc] at hd
      have hdc : d = c := by
        rcases List.mem_filter.mp hd with ⟨hmem, -⟩
        simpa using hmem
      subst hdc
      exact ⟨hv, hnc⟩

theorem caseAccentFold_chars (t : List Char) :
    ∀ d ∈ caseAccentFold t, lowerChar d = d ∧ nfdChar d = [d] ∧ isMark d = false := by
  intro d hd
  rw [caseAccentFold] at hd
  rcases List.mem_filter.mp hd with ⟨hmem, hmark⟩
  rcases List.mem_flatMap.mp hmem with ⟨a, ha, hda⟩
  rcases List.mem_map.mp ha with ⟨c0, -, rfl⟩
  have hgood := charPipeGood c0 d (List.mem_filter.mpr ⟨hda, hmark⟩)
  exact ⟨hgood.1, hgood.2, by simpa using hmark⟩

theorem hyphenStage_chars (t : List Char) :
    ∀ d ∈ (caseAccentFold t).map hyphenToSpace, GoodOut d := by
  intro d hd
  rcases List.mem_map.mp hd with ⟨c, hc, rfl⟩
  have h := caseAccentFold_chars t c hc
  by_cases hh : (c == '-') = true
  · have he : hyphenToSpace c = ' ' := by simp [hyphenToSpace, hh]
    rw [he]
    decide
  · have hne : c ≠ '-' := by simpa using hh
    have he : hyphenToSpace c = c := by simp [hyphenToSpace, hh]
    rw [he]
    exact ⟨h.1, h.2.1, h.2.2, hne⟩

theorem mem_trimWs (s : List Char) : ∀ d ∈ trimWs s, d ∈ s := by
  intro d hd
  rw [trimWs, dropTrail] at hd
  have h1 := List.mem_reverse.mp hd
  have h2 := (List.dropWhile_sublist _).subset h1
  have h3 := List.mem_reverse.mp h2
  exact (List.dropWhile_sublist _).subset h3

theorem normalizeTitle_chars (t : List Char) :
    ∀ d ∈ normalizeTitle t, GoodOut d := by
  intro d hd
  rw [normalizeTitle] at hd
  have hd1 := mem_trimWs _ d hd
  rcases mem_replaceAll _ _ _ d hd1 with hd2 | hq
  · rcases mem_replaceAll _ _ _ d hd2 with hd3 | hl
    · rcases mem_collapseWs _ d hd3 with rfl | hd4
      · decide
      · exact hyphenStage_chars t d hd4
    · have hdl : d = 'l' := by simpa [litroR] using hl
      subst hdl
      decide
  · have hdk : d = 'k' ∨ d = 'g' := by simpa [quiloR] using hq
    rcases hdk with rfl | rfl <;> decide

theorem atilde_not_mem_normalizeTitle (t : List Char) : 'ã' ∉ normalizeTitle t := by
  intro h
  have hg := (normalizeTitle_chars t 'ã' h).2.1
  exact absurd hg (by decide)

/-! ## Trim lemmas -/

theorem dropWhile_idem (p : Char → Bool) (s : List Char) :
    (s.dropWhile p).dropWhile p = s.dropWhile p := by
  induction s with
  | nil => rfl
  | cons c rest ih =>
    rw [List.dropWhile_cons]
    by_cases hp : p c = true
    · rw [if_pos hp]; exact ih
    · rw [if_neg hp, List.dropWhile_cons, if_neg hp]

theorem head_dropWhile_false (p : Char → Bool) (s : List Char) :
    ∀ c, (s.dropWhile p).head? = some c → p c = false := by
  induction s with
  | nil => intro c h; cases h
  | cons a rest ih =>
    intro c h
    rw [List.dropWhile_cons] at h
    by_cases hp : p a = true
    · rw [if_pos hp] at h; exact ih c h
    · rw [if_neg hp] at h
      have hac : a = c := by simpa using h
      subst hac
      simpa using hp

theorem head?_of_append {x w : List Char} {c : Char}
    (h : x.head? = some c) : (x ++ w).head? = some c := by
  cases x with
  | nil => cases h
  | cons a x' => simpa using h

theorem dropWhile_eq_self_of_head (p : Char → Bool) (s : List Char)
    (h : ∀ c, s.head? = some c → p c = false) : s.dropWhile p = s := by
  cases s with
  | nil => rfl
  | cons c rest =>
    rw [List.dropWhile_cons, if_neg]
    simp [h c rfl]

theorem dropTrail_spec (s : List Char) :
    s = dropTrail s ++ (s.reverse.takeWhile isWs).reverse ∧
      ∀ c ∈ (s.reverse.takeWhile isWs).reverse, isWs c = true := by
  constructor
  · have h : s.reverse.takeWhile isWs ++ s.reverse.dropWhile isWs = s.reverse :=
      List.takeWhile_append_dropWhile isWs s.reverse
    have h2 := congrArg List.reverse h
    rw [List.reverse_append, List.reverse_reverse] at h2
    rw [dropTrail]
    exact h2.symm
  · intro c hc
    exact List.mem_takeWhile_imp (List.mem_reverse.mp hc)

theorem dropTrail_idem (s : List Char) : dropTrail (dropTrail s) = dropTrail s := by
  rw [dropTrail, dropTrail, List.reverse_reverse, dropWhile_idem]

theorem trimWs_idem (s : List Char) : trimWs (trimWs s) = trimWs s := by
  have hdw : (trimWs s).dropWhile isWs = trimWs s := by
    apply dropWhile_eq_self_of_head
    intro c hc
    rw [trimWs] at hc
    obtain ⟨hpre, -⟩ := dropTrail_spec (s.dropWhile isWs)
    have hh : (s.dropWhile isWs).head? = some c := by
      rw [hpre]
      exact head?_of_append hc
    exact head_dropWhile_false isWs s c hh
  show dropTrail ((trimWs s).dropWhile isWs) = trimWs s
  rw [hdw]
  exact dropTrail_idem (s.dropWhile isWs)

/-! ## Canonical whitespace shape of the normalizer's intermediate results -/

theorem mem_of_getLast?Char {l : List Char} {x : Char} (h : x ∈ l.getLast?) :
    x ∈ l := by
  obtain ⟨h1, h2⟩ := List.mem_getLast?_eq_getLast h
  rw [h2]
  exact List.getLast_mem h1

theorem wsCanon_nil : WsCanon [] := by
  constructor
  · intro c hc; cases hc
  · simp

theorem wsCanon_tail {a : Char} {l : List Char} (h : WsCanon (a :: l)) :
    WsCanon l := by
  refine ⟨fun c hc hw => h.1 c (List.mem_cons_of_mem _ hc) hw, ?_⟩
  exact (List.chain'_cons'.mp h.2).2

theorem wsCanon_append_right {x y : List Char} (h : WsCanon (x ++ y)) :
    WsCanon y := by
  refine ⟨fun c hc hw => h.1 c (List.mem_append.mpr (Or.inr hc)) hw, ?_⟩
  exact h.2.right_of_append

theorem wsCanon_append_left {x y : List Char} (h : WsCanon (x ++ y)) :
    WsCanon x := by
  refine ⟨fun c hc hw => h.1 c (List.mem_append.mpr (Or.inl hc)) hw, ?_⟩
  exact h.2.left_of_append

theorem wsCanon_drop {s : List Char} (n : Nat) (h : WsCanon s) :
    WsCanon (s.drop n) := by
  have hsplit := List.take_append_drop n s
  exact wsCanon_append_right (hsplit ▸ h)

theorem chain'_of_all_nonws (x : List Char) (hx : ∀ c ∈ x, isWs c = false) :
    List.Chain' (fun a b => ¬(a = ' ' ∧ b = ' ')) x := by
  induction x with
  | nil => simp
  | cons a rest ih =>
    rw [List.chain'_cons']
    refine ⟨?_, ih fun c hc => hx c (List.mem_cons_of_mem _ hc)⟩
    intro b _ hcontra
    have ha := hx a (List.mem_cons_self _ _)
    rw [hcontra.1] at ha
    exact absurd ha (by decide)

theorem wsCanon_nonws_append (x y : List Char)
    (hx : ∀ c ∈ x, isWs c = false) (hy : WsCanon y) : WsCanon (x ++ y) := by
  constructor
  · intro c hc hw
    rcases List.mem_append.mp hc with h1 | h2
    · exact absurd hw (by simp [hx c h1])
    · exact hy.1 c h2 hw
  · rw [List.chain'_append]
    refine ⟨chain'_of_all_nonws x hx, hy.2, ?_⟩
    intro a ha b _ hcontra
    have ha' := hx a (mem_of_getLast?Char ha)
    rw [hcontra.1] at ha'
    exact absurd ha' (by decide)

theorem collapseWs_head_nonws (s : List Char) :
    ∀ b, (collapseWs (s.dropWhile isWs)).head? = some b → isWs b = false := by
  intro b hb
  cases hv : s.dropWhile isWs with
  | nil => rw [hv, collapseWs_nil] at hb; cases hb
  | cons a rest =>
    have ha : isWs a = false := by
      have := head_dropWhile_false isWs s a (by rw [hv]; rfl)
      exact this
    rw [hv, collapseWs_cons, if_neg (by simp [ha])] at hb
    have hba : b = a := by simpa using hb.symm
    rw [hba]
    exact ha

theorem wsCanon_collapseWs : ∀ s : List Char, WsCanon (collapseWs s) := by
  suffices h : ∀ n s, s.length ≤ n → WsCanon (collapseWs s) by
    intro s; exact h s.length s le_rfl
  intro n
  induction n with
  | zero =>
    intro s hs
    have hnil : s = [] := List.length_eq_zero.mp (Nat.le_zero.mp hs)
    subst hnil
    exact wsCanon_nil
  | succ n ih =>
    intro s hs
    cases s with
    | nil => exact wsCanon_nil
    | cons a rest =>
      have hrest : rest.length ≤ n := by
        simpa using Nat.le_of_succ_le_succ hs
      rw [collapseWs_cons]
      by_cases hw : isWs a = true
      · rw [if_pos hw]
        have hlen : (rest.dropWhile isWs).length ≤ n :=
          le_trans (List.dropWhile_sublist _).length_le hrest
        have hc := ih _ hlen
        constructor
        · intro c hc' hw'
          rcases List.mem_cons.mp hc' with rfl | hm
          · rfl
          · exact hc.1 c hm hw'
        · rw [List.chain'_cons']
          refine ⟨?_, hc.2⟩
          intro b hb hcontra
          have hnw := collapseWs_head_nonws rest b (Option.mem_def.mp hb)
          rw [hcontra.2] at hnw
          exact absurd hnw (by decide)
      · rw [if_neg hw]
        have hc := ih rest hrest
        constructor
        · intro c hc' hw'
          rcases List.mem_cons.mp hc' with rfl | hm
          · exact absurd hw' hw
          · exact hc.1 c hm hw'
        · rw [List.chain'_cons']
          refine ⟨?_, hc.2⟩
          intro b _ hcontra
          rw [hcontra.1] at hw
          exact hw (by decide)

theorem collapseWs_eq_self : ∀ s : List Char, WsCanon s → collapseWs s = s := by
  intro s
  induction s with
  | nil => intro _; rfl
  | cons a rest ih =>
    intro h
    rw [collapseWs_cons]
    by_cases hw : isWs a = true
    · rw [if_pos hw]
      have ha : a = ' ' := h.1 a (List.mem_cons_self _ _) hw
      have hrest : rest.dropWhile isWs = rest := by
        apply dropWhile_eq_self_of_head
        intro c hcHead
        cases rest with
        | nil => cases hcHead
        | cons b rest' =>
          have hbc : b = c := by simpa using hcHead
          subst hbc
          by_cases hwb : isWs b = true
          · have hb' : b = ' ' := h.1 b (by simp) hwb
            have hch := (List.chain'_cons'.mp h.2).1 b (by simp)
            exact absurd ⟨ha, hb'⟩ hch
          · simpa using hwb
      rw [hrest, ih (wsCanon_tail h), ha]
    · rw [if_neg hw, ih (wsCanon_tail h)]

theorem head?_replaceAll (p r : List Char) (hr : r ≠ [])
    (hrw : ∀ c ∈ r, isWs c = false) :
    ∀ (s : List Char) (b : Char), (replaceAll p r s).head? = some b →
      isWs b = false ∨ s.head? = some b := by
  intro s b h
  cases s with
  | nil => rw [replaceAll_nil] at h; cases h
  | cons a rest =>
    rw [replaceAll_cons] at h
    by_cases hsw : startsWith p (a :: rest) = true
    · rw [if_pos hsw] at h
      cases r with
      | nil => exact absurd rfl hr
      | cons rb r' =>
        left
        have hbr : rb = b := by simpa using h
        rw [← hbr]
        exact hrw rb (List.mem_cons_self _ _)
    · rw [if_neg hsw] at h
      right
      simpa using h

theorem wsCanon_replaceAll (p r : List Char) (hr : r ≠ [])
    (hrw : ∀ c ∈ r, isWs c = false) :
    ∀ s, WsCanon s → WsCanon (replaceAll p r s) := by
  suffices h : ∀ n s, s.length ≤ n → WsCanon s → WsCanon (replaceAll p r s) by
    intro s; exact h s.length s le_rfl
  intro n
  induction n with
  | zero =>
    intro s hs _
    have hnil : s = [] := List.length_eq_zero.mp (Nat.le_zero.mp hs)
    subst hnil
    rw [replaceAll_nil]
    exact wsCanon_nil
  | succ n ih =>
    intro s hs hcanon
    cases s with
    | nil => rw [replaceAll_nil]; exact wsCanon_nil
    | cons a rest =>
      have hrest : rest.length ≤ n := by
        simpa using Nat.le_of_succ_le_succ hs
      rw [replaceAll_cons]
      by_cases hsw : startsWith p (a :: rest) = true
      · rw [if_pos hsw]
        have hlen : (rest.drop (p.length - 1)).length ≤ n :=
          le_trans (List.drop_sublist _ _).length_le hrest
        have hrec := ih _ hlen (wsCanon_drop _ (wsCanon_tail hcanon))
        exact wsCanon_nonws_append r _ hrw hrec
      · rw [if_neg hsw]
        have hrec := ih rest hrest (wsCanon_tail hcanon)
        constructor
        · intro c hc hw
          rcases List.mem_cons.mp hc with rfl | hm
          · exact hcanon.1 c (List.mem_cons_self _ _) hw
          · exact hrec.1 c hm hw
        · rw [List.chain'_cons']
          refine ⟨?_, hrec.2⟩
          intro b hb hcontra
          rcases head?_replaceAll p r hr hrw rest b (Option.mem_def.mp hb) with hnw | hhead
          · rw [hcontra.2] at hnw
            exact absurd hnw (by decide)
          · have hch := (List.chain'_cons'.mp hcanon.2).1 b (Option.mem_def.mpr hhead)
            exact hch hcontra

theorem wsCanon_trimWs (s : List Char) (h : WsCanon s) : WsCanon (trimWs s) := by
  have h1 : WsCanon (s.dropWhile isWs) := by
    have hsplit := List.takeWhile_append_dropWhile isWs s
    exact wsCanon_append_right (hsplit ▸ h)
  obtain ⟨hpre, -⟩ := dropTrail_spec (s.dropWhile isWs)
  exact wsCanon_append_left (hpre ▸ h1)

/-! ## Pointwise identity helpers -/

theorem map_eq_self_of_forall {f : Char → Char} :
    ∀ {l : List Char}, (∀ c ∈ l, f c = c) → l.map f = l := by
  intro l
  induction l with
  | nil => intro _; rfl
  | cons a rest ih =>
    intro h
    rw [List.map_cons, h a (List.mem_cons_self _ _),
      ih fun c hc => h c (List.mem_cons_of_mem _ hc)]

theorem flatMap_eq_self_of_forall {f : Char → List Char} :
    ∀ {l : List Char}, (∀ c ∈ l, f c = [c]) → l.flatMap f = l := by
  intro l
  induction l with
  | nil => intro _; rfl
  | cons a rest ih =>
    intro h
    rw [List.flatMap_cons, h a (List.mem_cons_self _ _),
      ih fun c hc => h c (List.mem_cons_of_mem _ hc)]
    rfl

/-! ## Claim C2: idempotence of the normalizer -/

/-- C2 counterexample: `normalize` is not idempotent for every text.  On the
input `"litroitro"` one pass of the normalizer rewrites the leftmost
`litro` to `l` and leaves `"litro"`, which a second pass rewrites again to
`"l"`. -/
theorem claim_C2_counterexample :
    normalizeTitle (normalizeTitle (("litroitro").toList)) ≠
      normalizeTitle (("litroitro").toList) := by decide

/-- C2 (amended): the normalizer is idempotent on every input whose
normalized form contains no further occurrence of `litro` or `quilo`;
the unit replacements are the only non-idempotent steps. -/
theorem claim_C2_amended (x : List Char)
    (h1 : includes (normalizeTitle x) litroP = false)
    (h2 : includes (normalizeTitle x) quiloP = false) :
    normalizeTitle (normalizeTitle x) = normalizeTitle x := by
  have hchars := normalizeTitle_chars x
  have hfold : caseAccentFold (normalizeTitle x) = normalizeTitle x := by
    rw [caseAccentFold,
      map_eq_self_of_forall fun c hc => (hchars c hc).1,
      flatMap_eq_self_of_forall fun c hc => (hchars c hc).2.1]
    exact List.filter_eq_self.mpr fun c hc => by simp [(hchars c hc).2.2.1]
  have hhyph : (normalizeTitle x).map hyphenToSpace = normalizeTitle x :=
    map_eq_self_of_forall fun c hc => by
      have hne := (hchars c hc).2.2.2
      simp [hyphenToSpace, hne]
  have hcanon : WsCanon (normalizeTitle x) := by
    rw [normalizeTitle]
    apply wsCanon_trimWs
    apply wsCanon_replaceAll quiloP quiloR (by decide) (by decide)
    apply wsCanon_replaceAll litroP litroR (by decide) (by decide)
    exact wsCanon_collapseWs _
  have hcollapse : collapseWs (normalizeTitle x) = normalizeTitle x :=
    collapseWs_eq_self _ hcanon
  have hlit : replaceAll litroP litroR (normalizeTitle x) = normalizeTitle x :=
    replaceAll_of_not_occurs _ _ _ (not_occurs_of_includes_false h1)
  have hqui : replaceAll quiloP quiloR (normalizeTitle x) = normalizeTitle x :=
    replaceAll_of_not_occurs _ _ _ (not_occurs_of_includes_false h2)
  have htrim : trimWs (normalizeTitle x) = normalizeTitle x := by
    conv_lhs => rw [normalizeTitle]
    rw [trimWs_idem]
    rw [normalizeTitle]
  calc normalizeTitle (normalizeTitle x)
      = trimWs (replaceAll quiloP quiloR (replaceAll litroP litroR
          (collapseWs ((caseAccentFold (normalizeTitle x)).map hyphenToSpace)))) := rfl
    _ = normalizeTitle x := by rw [hfold, hhyph, hcollapse, hlit, hqui, htrim]

/-- Witness for the amended C2 at the concrete title `Leite Integral 1L`. -/
theorem claim_C2_amended_witness :
    includes (normalizeTitle (("Leite Integral 1L").toList)) litroP = false ∧
    includes (normalizeTitle (("Leite Integral 1L").toList)) quiloP = false ∧
    normalizeTitle (normalizeTitle (("Leite Integral 1L").toList)) =
      normalizeTitle (("Leite Integral 1L").toList) :=
  ⟨by decide, by decide, claim_C2_amended _ (by decide) (by decide)⟩

/-! ## Commuting the whitespace collapse with the unit replacements -/

theorem startsWith_head_ne {a c : Char} (p' rest : List Char) (hne : a ≠ c) :
    startsWith (a :: p') (c :: rest) = false := by
  show (a == c && startsWith p' rest) = false
  simp [beq_eq_false_iff_ne.mpr hne]

theorem startsWith_collapseWs :
    ∀ p : List Char, (∀ c ∈ p, isWs c = false) →
      ∀ s, startsWith p (collapseWs s) = startsWith p s := by
  intro p
  induction p with
  | nil => intro _ s; rfl
  | cons a p' ih =>
    intro hpw s
    have ha : isWs a = false := hpw a (List.mem_cons_self _ _)
    cases s with
    | nil => rfl
    | cons c rest =>
      by_cases hw : isWs c = true
      · have hne : a ≠ c := by
          intro h
          rw [h] at ha
          rw [ha] at hw
          simp at hw
        have hne' : a ≠ ' ' := by
          intro h
          rw [h] at ha
          simp [isWs, wsEnum] at ha
        rw [collapseWs_cons, if_pos hw, startsWith_head_ne _ _ hne',
          startsWith_head_ne _ _ hne]
      · rw [collapseWs_cons, if_neg hw]
        show (a == c && startsWith p' (collapseWs rest)) =
          (a == c && startsWith p' rest)
        rw [ih (fun d hd => hpw d (List.mem_cons_of_mem _ hd)) rest]

theorem dropWhile_replaceAll_comm {p r : List Char} (hp : p ≠ [])
    (hpw : ∀ c ∈ p, isWs c = false) (hr : r ≠ [])
    (hrw : ∀ c ∈ r, isWs c = false) :
    ∀ s, (replaceAll p r s).dropWhile isWs = replaceAll p r (s.dropWhile isWs) := by
  intro s
  induction s with
  | nil => simp [replaceAll_nil]
  | cons c rest ih =>
    obtain ⟨a, p', rfl⟩ : ∃ a p', p = a :: p' := by
      cases p with
      | nil => exact absurd rfl hp
      | cons a p' => exact ⟨a, p', rfl⟩
    have ha : isWs a = false := hpw a (List.mem_cons_self _ _)
    by_cases hw : isWs c = true
    · have hne : a ≠ c := by
        intro h
        rw [h] at ha
        rw [ha] at hw
        simp at hw
      rw [replaceAll_cons,
        if_neg (by simp [startsWith_head_ne p' rest hne])]
      have hdL : (c :: replaceAll (a :: p') r rest).dropWhile isWs =
          (replaceAll (a :: p') r rest).dropWhile isWs := by
        rw [List.dropWhile_cons, if_pos hw]
      have hdR : (c :: rest).dropWhile isWs = rest.dropWhile isWs := by
        rw [List.dropWhile_cons, if_pos hw]
      rw [hdL, hdR, ih]
    · have hdR : (c :: rest).dropWhile isWs = c :: rest := by
        rw [List.dropWhile_cons, if_neg (by simp [hw])]
      rw [hdR]
      by_cases hsw : startsWith (a :: p') (c :: rest) = true
      · rw [replaceAll_cons, if_pos hsw]
        obtain ⟨rb, r', rfl⟩ : ∃ rb r', r = rb :: r' := by
          cases r with
          | nil => exact absurd rfl hr
          | cons rb r' => exact ⟨rb, r', rfl⟩
        have hrb : isWs rb = false := hrw rb (List.mem_cons_self _ _)
        rw [List.cons_append, List.dropWhile_cons, if_neg (by simp [hrb])]
      · rw [replaceAll_cons, if_neg hsw, List.dropWhile_cons,
          if_neg (by simp [hw])]

theorem collapseWs_nonws_append :
    ∀ u v : List Char, (∀ c ∈ u, isWs c = false) →
      collapseWs (u ++ v) = u ++ collapseWs v := by
  intro u
  induction u with
  | nil => intro v _; rfl
  | cons a u' ih =>
    intro v hu
    have ha : isWs a = false := hu a (List.mem_cons_self _ _)
    rw [List.cons_append, collapseWs_cons, if_neg (by simp [ha]),
      ih v fun c hc => hu c (List.mem_cons_of_mem _ hc), List.cons_append]

theorem collapseWs_replaceAll_comm {p r : List Char} (hp : p ≠ [])
    (hpw : ∀ c ∈ p, isWs c = false) (hr : r ≠ [])
    (hrw : ∀ c ∈ r, isWs c = false) :
    ∀ s, replaceAll p r (collapseWs s) = collapseWs (replaceAll p r s) := by
  suffices h : ∀ n s, s.length ≤ n →
      replaceAll p r (collapseWs s) = collapseWs (replaceAll p r s) by
    intro s; exact h s.length s le_rfl
  intro n
  induction n with
  | zero =>
    intro s hs
    have hnil : s = [] := List.length_eq_zero.mp (Nat.le_zero.mp hs)
    subst hnil
    rw [collapseWs_nil, replaceAll_nil, collapseWs_nil]
  | succ n ih =>
    intro s hs
    obtain ⟨a, p', hap⟩ : ∃ a p', p = a :: p' := by
      cases p with
      | nil => exact absurd rfl hp
      | cons a p' => exact ⟨a, p', rfl⟩
    have ha : isWs a = false := hpw a (hap ▸ List.mem_cons_self _ _)
    cases s with
    | nil => rw [collapseWs_nil, replaceAll_nil, collapseWs_nil]
    | cons c rest =>
      have hrest : rest.length ≤ n := by
        simpa using Nat.le_of_succ_le_succ hs
      by_cases hw : isWs c = true
      · -- whitespace head: both sides produce a single space and recurse
        have hne : a ≠ c := by
          intro h
          rw [h] at ha
          rw [ha] at hw
          simp at hw
        have hne' : a ≠ ' ' := by
          intro h
          rw [h] at ha
          simp [isWs, wsEnum] at ha
        have hswc : startsWith p (c :: rest) = false := by
          rw [hap]; exact startsWith_head_ne _ _ hne
        rw [collapseWs_cons, if_pos hw, replaceAll_cons,
          if_neg (by rw [hap, startsWith_head_ne _ _ hne']; simp)]
        rw [replaceAll_cons, if_neg (by simp [hswc])]
        rw [collapseWs_cons, if_pos hw]
        have hlen : (rest.dropWhile isWs).length ≤ n :=
          le_trans (List.dropWhile_sublist _).length_le hrest
        rw [ih _ hlen, dropWhile_replaceAll_comm hp hpw hr hrw]
      · by_cases hsw : startsWith p (c :: rest) = true
        · -- a pattern occurrence starts here on both sides
          obtain ⟨t, hts⟩ := (startsWith_iff _ _).mp hsw
          have hlent : t.length ≤ n := by
            have := congrArg List.length hts
            simp [hap] at this
            omega
          rw [hts, collapseWs_nonws_append p t hpw,
            replaceAll_append p r _ hp, replaceAll_append p r t hp,
            collapseWs_nonws_append r _ hrw, ih t hlent]
        · -- no occurrence at this non-whitespace head
          have hcol : collapseWs (c :: rest) = c :: collapseWs rest := by
            rw [collapseWs_cons, if_neg hw]
          have hsw2 : startsWith p (collapseWs (c :: rest)) = false := by
            rw [startsWith_collapseWs p hpw]
            simpa using hsw
          rw [hcol] at hsw2
          rw [hcol, replaceAll_cons, if_neg (by simp [hsw2]),
            replaceAll_cons, if_neg hsw]
          rw [collapseWs_cons, if_neg hw, ih rest hrest]

/-! ## Claim C8: the normalizer's step order and guarantees -/

/-- C8: `normalizeTitle` returns exactly the result of lowercasing, accent
decomposition plus mark stripping, hyphen replacement, the unit replacements
`litro`→`l` and `quilo`→`kg`, whitespace collapse and trim, in the spec's
order (`normalizeSpecOrder`); the source collapses whitespace before the
unit replacements, but the two orders agree on every input because the unit
patterns and replacements contain no whitespace.  The embedding is a total
pure function, and it maps the empty string to the empty string. -/
theorem claim_C8_normalizer_steps (t : List Char) :
    normalizeTitle t = normalizeSpecOrder t ∧ normalizeTitle [] = [] := by
  constructor
  · rw [normalizeTitle, normalizeSpecOrder]
    have h2 : collapseWs (replaceAll litroP litroR ((caseAccentFold t).map hyphenToSpace)) =
        replaceAll litroP litroR (collapseWs ((caseAccentFold t).map hyphenToSpace)) :=
      (collapseWs_replaceAll_comm (by decide) (by decide) (by decide) (by decide) _).symm
    have h1 : collapseWs (replaceAll quiloP quiloR (replaceAll litroP litroR
        ((caseAccentFold t).map hyphenToSpace))) =
        replaceAll quiloP quiloR (collapseWs (replaceAll litroP litroR
          ((caseAccentFold t).map hyphenToSpace))) :=
      (collapseWs_replaceAll_comm (by decide) (by decide) (by decide) (by decide) _).symm
    rw [h1, h2]
  · decide

/-! ## Claim C10: the accented `feijão` disjunct is dead after normalization -/

theorem feijaoTilde_not_includes (t : List Char) :
    includes (normalizeTitle t) mFeijaoTilde = false := by
  cases h : includes (normalizeTitle t) mFeijaoTilde with
  | false => rfl
  | true =>
    have hocc := (includes_iff _ _).mp h
    have hmem : 'ã' ∈ normalizeTitle t := hocc.mem (by decide)
    exact absurd hmem (atilde_not_mem_normalizeTitle t)

theorem extractFeatures_noTilde_eq {t : List Char}
    (h : includes t mFeijaoTilde = false) :
    extractFeatures t = extractFeaturesNoTilde t := by
  rw [extractFeatures, extractFeaturesNoTilde, h]
  simp

/-- C10: deleting the disjunct that tests containment of the accented
spelling `feijão` does not change `extractKey ∘ normalize` on any title:
the normalizer's output never contains `ã` (every output character is
NFD-trivial), so the containment test is always false. -/
theorem claim_C10_tilde_disjunct_dead (t : List Char) :
    generateProductKey (normalizeTitle t) =
      generateProductKeyNoTilde (normalizeTitle t) := by
  rw [generateProductKey, generateProductKeyNoTilde,
    extractFeatures_noTilde_eq (feijaoTilde_not_includes t)]

/-! ## Claim C3: unit synonym collapse -/

/-- C3 counterexample: the claim says a title whose first size occurrence
comes from `1 Quilo` yields size token `1kg`; on `1 Quilo` the code
normalizes to `1 kg` and the regex `(\d+)\s*([kgl])` captures a single unit
letter, producing `1k`, not `1kg`. -/
theorem claim_C3_counterexample :
    (extractFeatures (normalizeTitle (("1 Quilo").toList))).size = ("1k").toList ∧
      (extractFeatures (normalizeTitle (("1 Quilo").toList))).size ≠ ("1kg").toList :=
  ⟨by decide, by decide⟩

/-- C3 (amended): `1 Litro` and `1L` produce the same size token `1l`;
`1 Quilo` and `1kg` produce the same size token, namely `1k` (the regex
captures one unit letter, so the `g` of `kg` is dropped). -/
theorem claim_C3_amended :
    (extractFeatures (normalizeTitle (("1 Litro").toList))).size = ("1l").toList ∧
    (extractFeatures (normalizeTitle (("1L").toList))).size = ("1l").toList ∧
    (extractFeatures (normalizeTitle (("1 Quilo").toList))).size = ("1k").toList ∧
    (extractFeatures (normalizeTitle (("1kg").toList))).size = ("1k").toList :=
  ⟨by decide, by decide, by decide, by decide⟩

/-! ## Size-pattern lemmas -/

theorem wsEnum_not_digit : ∀ c ∈ wsEnum, Char.isDigit c = false := by decide

theorem unitEnum_facts :
    ∀ c ∈ unitEnum, Char.isDigit c = false ∧ isWs c = false := by decide

theorem isWs_not_digit {c : Char} (h : isWs c = true) : Char.isDigit c = false :=
  wsEnum_not_digit c (List.elem_iff.mp h)

theorem isSizeUnit_not_digit {c : Char} (h : isSizeUnit c = true) :
    Char.isDigit c = false :=
  (unitEnum_facts c (List.elem_iff.mp h)).1

theorem isSizeUnit_not_ws {c : Char} (h : isSizeUnit c = true) :
    isWs c = false :=
  (unitEnum_facts c (List.elem_iff.mp h)).2

theorem takeWhile_append_all (p : Char → Bool) :
    ∀ (d z : List Char), (∀ c ∈ d, p c = true) →
      (∀ c0, z.head? = some c0 → p c0 = false) →
      (d ++ z).takeWhile p = d ∧ (d ++ z).dropWhile p = z := by
  intro d
  induction d with
  | nil =>
    intro z _ hz
    constructor
    · cases z with
      | nil => rfl
      | cons c z' =>
        rw [List.nil_append, List.takeWhile_cons, if_neg (by simp [hz c rfl])]
    · exact dropWhile_eq_self_of_head p z hz
  | cons e d' ih =>
    intro z hd hz
    have he : p e = true := hd e (List.mem_cons_self _ _)
    have hih := ih z (fun c hc => hd c (List.mem_cons_of_mem _ hc)) hz
    constructor
    · rw [List.cons_append, List.takeWhile_cons, if_pos he, hih.1]
    · rw [List.cons_append, List.dropWhile_cons, if_pos he, hih.2]

theorem trySizeAt_sound {s : List Char} {d : List Char} {u : Char}
    (h : trySizeAt s = some (d, u)) :
    ∃ w b, s = d ++ w ++ u :: b ∧ d = s.takeWhile Char.isDigit ∧
      (∀ c ∈ d, Char.isDigit c = true) ∧ (∀ c ∈ w, isWs c = true) ∧
      isSizeUnit u = true := by
  cases hrest : (s.dropWhile Char.isDigit).dropWhile isWs with
  | nil =>
    rw [trySizeAt, hrest] at h
    exact absurd h (by simp)
  | cons u' b =>
    rw [trySizeAt, hrest] at h
    have h' : (if isSizeUnit u' = true then
        some (s.takeWhile Char.isDigit, u') else none) = some (d, u) := h
    by_cases hu : isSizeUnit u' = true
    · rw [if_pos hu] at h'
      have hdu : s.takeWhile Char.isDigit = d ∧ u' = u := by
        have hp := Option.some.inj h'
        exact ⟨congrArg Prod.fst hp, congrArg Prod.snd hp⟩
      refine ⟨(s.dropWhile Char.isDigit).takeWhile isWs, b, ?_, hdu.1.symm, ?_, ?_, ?_⟩
      · rw [← hdu.1, ← hdu.2]
        conv_lhs => rw [← List.takeWhile_append_dropWhile Char.isDigit s]
        rw [List.append_assoc]
        congr 1
        conv_lhs => rw [← List.takeWhile_append_dropWhile isWs
          (s.dropWhile Char.isDigit)]
        rw [hrest]
      · intro c hc
        rw [← hdu.1] at hc
        exact List.mem_takeWhile_imp hc
      · intro c hc
        exact List.mem_takeWhile_imp hc
      · rw [← hdu.2]; exact hu
    · rw [if_neg hu] at h'
      cases h'

theorem matchSize_sound :
    ∀ (t : List Char) (d : List Char) (u : Char),
      matchSize t = some (d, u) →
      ∃ a w b, t = a ++ d ++ w ++ u :: b ∧ d ≠ [] ∧
        (∀ c ∈ d, Char.isDigit c = true) ∧ (∀ c ∈ w, isWs c = true) ∧
        isSizeUnit u = true := by
  intro t
  induction t with
  | nil => intro d u h; cases h
  | cons c rest ih =>
    intro d u h
    rw [matchSize] at h
    by_cases hd : Char.isDigit c = true
    · rw [if_pos hd] at h
      cases htry : trySizeAt (c :: rest) with
      | some m =>
        simp only [htry] at h
        obtain rfl : m = (d, u) := Option.some.inj h
        obtain ⟨w, b, hseq, hdtake, hdig, hws, hu⟩ := trySizeAt_sound htry
        refine ⟨[], w, b, by simpa using hseq, ?_, hdig, hws, hu⟩
        rw [hdtake, List.takeWhile_cons, if_pos hd]
        simp
      | none =>
        simp only [htry] at h
        obtain ⟨a, w, b, hseq, hne, hdig, hws, hu⟩ := ih d u h
        exact ⟨c :: a, w, b, by rw [hseq]; rfl, hne, hdig, hws, hu⟩
    · rw [if_neg hd] at h
      obtain ⟨a, w, b, hseq, hne, hdig, hws, hu⟩ := ih d u h
      exact ⟨c :: a, w, b, by rw [hseq]; rfl, hne, hdig, hws, hu⟩

theorem trySizeAt_of_decomp (d w b : List Char) (u : Char)
    (hdig : ∀ c ∈ d, Char.isDigit c = true) (hws : ∀ c ∈ w, isWs c = true)
    (hu : isSizeUnit u = true) :
    trySizeAt (d ++ w ++ u :: b) = some (d, u) := by
  have hz : ∀ c0, (w ++ u :: b).head? = some c0 → Char.isDigit c0 = false := by
    intro c0 hc0
    cases w with
    | nil =>
      have : u = c0 := by simpa using hc0
      rw [← this]
      exact isSizeUnit_not_digit hu
    | cons x w' =>
      have : x = c0 := by simpa using hc0
      rw [← this]
      exact isWs_not_digit (hws x (List.mem_cons_self _ _))
  have h1 := takeWhile_append_all Char.isDigit d (w ++ u :: b) hdig hz
  have h2 := takeWhile_append_all isWs w (u :: b) hws
    (fun c0 hc0 => by
      have : u = c0 := by simpa using hc0
      rw [← this]
      exact isSizeUnit_not_ws hu)
  rw [trySizeAt, List.append_assoc, h1.1, h1.2, h2.2]
  simp [hu]

theorem matchSize_complete :
    ∀ t : List Char, HasSizeOcc t → matchSize t ≠ none := by
  intro t h
  obtain ⟨a, d, w, u, b, rfl, hne, hdig, hws, hu⟩ := h
  induction a with
  | nil =>
    obtain ⟨e, d', rfl⟩ : ∃ e d', d = e :: d' := by
      cases d with
      | nil => exact absurd rfl hne
      | cons e d' => exact ⟨e, d', rfl⟩
    have he : Char.isDigit e = true := hdig e (List.mem_cons_self _ _)
    have htry := trySizeAt_of_decomp (e :: d') w b u hdig hws hu
    simp only [List.nil_append, List.cons_append, List.append_assoc] at htry ⊢
    rw [matchSize, if_pos he]
    simp only [htry]
    simp
  | cons x a' ih =>
    simp only [List.cons_append, List.append_assoc] at ih ⊢
    rw [matchSize]
    by_cases hx : Char.isDigit x = true
    · rw [if_pos hx]
      cases htry : trySizeAt (x :: (a' ++ (d ++ (w ++ u :: b)))) with
      | some m => simp [htry]
      | none => simpa [htry] using ih
    · rw [if_neg hx]
      exact ih

theorem sizeToken_congr {t₁ t₂ : List Char} (h : matchSize t₁ = matchSize t₂) :
    sizeToken t₁ = sizeToken t₂ := by
  rw [sizeToken, sizeToken, h]

theorem matchSize_of_decomp (a d w b : List Char) (u : Char)
    (ha : ∀ c ∈ a, Char.isDigit c = false) (hd : ∀ c ∈ d, Char.isDigit c = true)
    (hne : d ≠ []) (hw : ∀ c ∈ w, isWs c = true) (hu : isSizeUnit u = true) :
    matchSize (a ++ d ++ w ++ u :: b) = some (d, u) := by
  induction a with
  | nil =>
    obtain ⟨e, d', rfl⟩ : ∃ e d', d = e :: d' := by
      cases d with
      | nil => exact absurd rfl hne
      | cons e d' => exact ⟨e, d', rfl⟩
    have he : Char.isDigit e = true := hd e (List.mem_cons_self _ _)
    have htry := trySizeAt_of_decomp (e :: d') w b u hd hw hu
    simp only [List.nil_append, List.cons_append, List.append_assoc] at htry ⊢
    rw [matchSize, if_pos he]
    simp only [htry]
  | cons x a' ih =>
    have hx : Char.isDigit x = false := ha x (List.mem_cons_self _ _)
    have ih' := ih fun c hc => ha c (List.mem_cons_of_mem _ hc)
    simp only [List.cons_append, List.append_assoc] at ih' ⊢
    rw [matchSize, if_neg (by simp [hx])]
    exact ih'

/-! ## Claim C9: the size scan -/

/-- C9: size extraction is independent of the matched product type and
always attempted (the `size` field equals the standalone scan on every
branch); it scans for digits, optional whitespace, then one unit letter
k/g/l (case-insensitive), uses only the first such occurrence even if more
appear later, and yields the digits concatenated with the lowercased unit
letter; when there is no occurrence the size token is empty. -/
theorem claim_C9_size_extraction :
    (∀ t, (extractFeatures t).size = sizeToken t) ∧
    (∀ (a d w b : List Char) (u : Char), (∀ c ∈ a, Char.isDigit c = false) →
      (∀ c ∈ d, Char.isDigit c = true) → d ≠ [] →
      (∀ c ∈ w, isWs c = true) → isSizeUnit u = true →
      sizeToken (a ++ d ++ w ++ u :: b) = d ++ [lowerChar u]) ∧
    (∀ t, ¬ HasSizeOcc t → sizeToken t = []) := by
  refine ⟨?_, ?_, ?_⟩
  · intro t
    rw [extractFeatures]
    by_cases h1 : includes t mLeite = true
    · rw [if_pos h1]
    · rw [if_neg h1]
      by_cases h2 : includes t mArroz = true
      · rw [if_pos h2]
      · rw [if_neg h2]
        by_cases h3 : (includes t mFeijao || includes t mFeijaoTilde) = true
        · rw [if_pos h3]
        · rw [if_neg h3]
  · intro a d w b u ha hd hne hw hu
    rw [sizeToken, matchSize_of_decomp a d w b u ha hd hne hw hu]
  · intro t h
    cases hm : matchSize t with
    | none => rw [sizeToken, hm]
    | some du =>
      obtain ⟨a, w, b, hseq, hne2, hdig, hws, hu⟩ :=
        matchSize_sound t du.1 du.2 (by rw [hm])
      exact absurd ⟨a, du.1, w, du.2, b, hseq, hne2, hdig, hws, hu⟩ h

/-- Witness for C9 at concrete inputs: the scan on
`arroz 5kg off` equals `5k`, and `arroz branco` has no size token. -/
theorem claim_C9_size_extraction_witness :
    sizeToken ((("arroz ").toList) ++ (("5").toList) ++ [] ++ 'k' :: (("g off").toList)) =
      ("5k").toList ∧
    sizeToken (("arroz branco").toList) = [] :=
  ⟨claim_C9_size_extraction.2.1 _ _ _ _ _ (by decide) (by decide) (by decide)
      (by decide) (by decide),
    claim_C9_size_extraction.2.2 _ fun h => matchSize_complete _ h (by decide)⟩

/-! ## Claim C7: totality and the unclassified bucket -/

/-- C7: the key extractor is a total function in the embedding; every absent
marker or size match degrades to the empty token, and on any title that
contains none of the recognized type, brand or variant markers and no size
occurrence the key is exactly `---` (three separators around four empty
tokens), so all such titles fall into one shared bucket. -/
theorem claim_C7_unclassified (t : List Char)
    (hLeite : includes t mLeite = false) (hArroz : includes t mArroz = false)
    (hFeijao : includes t mFeijao = false)
    (hFeijaoT : includes t mFeijaoTilde = false)
    (_hPira : includes t mPiracanjuba = false)
    (_hItalac : includes t mItalac = false)
    (_hParmalat : includes t mParmalat = false)
    (_hTioJoao : includes t mTioJoao = false)
    (_hCamil : includes t mCamil = false)
    (_hIntegral : includes t mIntegral = false)
    (_hSemi : includes t mSemiDesnatado = false)
    (_hSemiH : includes t mSemiDesnatadoHyphen = false)
    (_hDesnatado : includes t mDesnatado = false)
    (_hBranco : includes t mBranco = false)
    (_hCarioca : includes t mCarioca = false)
    (hSize : ¬ HasSizeOcc t) :
    generateProductKey t = ['-', '-', '-'] := by
  have hms : matchSize t = none := by
    cases hm : matchSize t with
    | none => rfl
    | some du =>
      obtain ⟨a, w, b, hseq, hne, hdig, hws, hu⟩ :=
        matchSize_sound t du.1 du.2 (by rw [hm])
      exact absurd ⟨a, du.1, w, du.2, b, hseq, hne, hdig, hws, hu⟩ hSize
  have hsz : sizeToken t = [] := by rw [sizeToken, hms]
  simp [generateProductKey, extractFeatures, joinKey, hLeite, hArroz, hFeijao,
    hFeijaoT, hsz]

/-- Witness for C7: the title `produto generico xyz` has no recognized
marker and no size occurrence and gets the key `---`. -/
theorem claim_C7_unclassified_witness :
    generateProductKey (("produto generico xyz").toList) = ['-', '-', '-'] :=
  claim_C7_unclassified _ (by decide) (by decide) (by decide) (by decide)
    (by decide) (by decide) (by decide) (by decide) (by decide) (by decide)
    (by decide) (by decide) (by decide) (by decide) (by decide)
    (fun h => matchSize_complete _ h (by decide))

/-! ## Claim C6: the type priority chain -/

/-- C6: the first rule of the ordered chain (leite, arroz, feijao) whose
primary marker is contained in the normalized title fixes `productType`,
with no fallback to a later type — in particular a title containing both
`leite` and `arroz` is typed `leite`; when no primary marker is contained
`productType` is the empty token. -/
theorem claim_C6_priority_chain (t : List Char) :
    (includes t mLeite = true → (extractFeatures t).productType = mLeite) ∧
    (includes t mLeite = false → includes t mArroz = true →
      (extractFeatures t).productType = mArroz) ∧
    (includes t mLeite = false → includes t mArroz = false →
      (includes t mFeijao || includes t mFeijaoTilde) = true →
      (extractFeatures t).productType = mFeijao) ∧
    (includes t mLeite = false → includes t mArroz = false →
      (includes t mFeijao || includes t mFeijaoTilde) = false →
      (extractFeatures t).productType = []) := by
  refine ⟨fun h1 => ?_, fun h1 h2 => ?_, fun h1 h2 h3 => ?_, fun h1 h2 h3 => ?_⟩
  · simp [extractFeatures, h1]
  · simp [extractFeatures, h1, h2]
  · simp [extractFeatures, h1, h2, h3]
  · simp [extractFeatures, h1, h2, h3]

/-- Witness for C6: a title containing both `leite` and `arroz` is typed
`leite`. -/
theorem claim_C6_priority_chain_witness :
    (extractFeatures (("leite com arroz").toList)).productType = mLeite :=
  (claim_C6_priority_chain _).1 (by decide)

/-! ## Claim C4: case and accent invariance -/

/-- C4: two titles that agree after lowercasing and accent stripping (the
formalization of differing only in letter case or accent marks) get the
same grouping key from `extractKey ∘ normalize`; in particular the three
spec titles all yield the key `leite-piracanjuba-integral-1l`. -/
theorem claim_C4_case_accent_invariance (t₁ t₂ : List Char)
    (h : caseAccentFold t₁ = caseAccentFold t₂) :
    generateProductKey (normalizeTitle t₁) = generateProductKey (normalizeTitle t₂) ∧
    generateProductKey (normalizeTitle (("Leite Integral Piracanjuba 1L").toList)) =
      ("leite-piracanjuba-integral-1l").toList ∧
    generateProductKey (normalizeTitle (("LEITE INTEGRAL PIRACANJUBA 1l").toList)) =
      ("leite-piracanjuba-integral-1l").toList ∧
    generateProductKey (normalizeTitle (("leite íntegral piracanjuba 1l").toList)) =
      ("leite-piracanjuba-integral-1l").toList := by
  refine ⟨?_, by decide, by decide, by decide⟩
  rw [normalizeTitle, normalizeTitle, h]

/-- Witness for C4 at two of the spec's titles. -/
theorem claim_C4_case_accent_invariance_witness :
    generateProductKey (normalizeTitle (("Leite Integral Piracanjuba 1L").toList)) =
      generateProductKey (normalizeTitle (("leite íntegral piracanjuba 1l").toList)) :=
  (claim_C4_case_accent_invariance _ _ (by decide)).1

/-! ## Claim C1: counts -/

theorem addProduct_total (key : List Char) (info : ProductInfo) (title : List Char) :
    ∀ m : List (List Char × RawCategory),
      ((addProduct key info title m).map fun kb => kb.2.products.length).sum =
        ((m.map fun kb => kb.2.products.length).sum) + 1 := by
  intro m
  induction m with
  | nil => simp [addProduct]
  | cons kb rest ih =>
    obtain ⟨k, b⟩ := kb
    rw [addProduct]
    by_cases hk : k = key
    · rw [if_pos hk]
      simp [List.length_append]
      omega
    · rw [if_neg hk]
      simp [ih]
      omega

theorem categorize_total :
    ∀ (ps : List Product) (m : List (List Char × RawCategory)),
      ((ps.foldl categorizeStep m).map fun kb => kb.2.products.length).sum =
        ((m.map fun kb => kb.2.products.length).sum) + ps.length := by
  intro ps
  induction ps with
  | nil => intro m; simp
  | cons p rest ih =>
    intro m
    rw [List.foldl_cons, ih, categorizeStep, addProduct_total]
    simp
    omega

/-- C1: over any input, the `count` fields of the emitted categories sum to
the number of input records, and within each category `count` equals the
length of its `products` list. -/
theorem claim_C1_count_invariant (ps : List Product) :
    ((categorizeProducts ps).map Category.count).sum = ps.length ∧
    ∀ cat ∈ categorizeProducts ps, cat.count = cat.products.length := by
  constructor
  · rw [categorizeProducts, List.map_map]
    have hcomp : (Category.count ∘ fun kb : List Char × RawCategory =>
        (⟨kb.2.category, kb.2.products.length, kb.2.products⟩ : Category)) =
        fun kb : List Char × RawCategory => kb.2.products.length := rfl
    rw [hcomp, categorize_total ps []]
    simp
  · intro cat hcat
    rw [categorizeProducts] at hcat
    rcases List.mem_map.mp hcat with ⟨kb, -, rfl⟩
    rfl

/-- Witness for C1 on a one-record input. -/
theorem claim_C1_count_invariant_witness :
    ((categorizeProducts [⟨("Arroz").toList, ("X").toList, 0⟩]).map Category.count).sum = 1 ∧
    (⟨("Arroz").toList, 1, [⟨("Arroz").toList, ("X").toList⟩]⟩ : Category).count =
      (⟨("Arroz").toList, 1, [⟨("Arroz").toList, ("X").toList⟩]⟩ : Category).products.length :=
  ⟨(claim_C1_count_invariant _).1.trans rfl,
    (claim_C1_count_invariant [⟨("Arroz").toList, ("X").toList, 0⟩]).2 _ (by decide)⟩

/-! ## Claim C5: order and representative titles -/

theorem foldl_ins_mem :
    ∀ (l acc : List (List Char)) (x : List Char),
      x ∈ l.foldl (fun acc k => if k ∈ acc then acc else acc ++ [k]) acc ↔
        x ∈ acc ∨ x ∈ l := by
  intro l
  induction l with
  | nil => intro acc x; simp
  | cons k rest ih =>
    intro acc x
    rw [List.foldl_cons, ih]
    by_cases hk : k ∈ acc
    · rw [if_pos hk]
      simp only [List.mem_cons]
      constructor
      · rintro (h | h)
        · exact Or.inl h
        · exact Or.inr (Or.inr h)
      · rintro (h | rfl | h)
        · exact Or.inl h
        · exact Or.inl hk
        · exact Or.inr h
    · rw [if_neg hk]
      simp only [List.mem_append, List.mem_singleton, List.mem_cons]
      tauto

theorem foldl_ins_nodup :
    ∀ (l acc : List (List Char)), acc.Nodup →
      (l.foldl (fun acc k => if k ∈ acc then acc else acc ++ [k]) acc).Nodup := by
  intro l
  induction l with
  | nil => intro acc h; exact h
  | cons k rest ih =>
    intro acc h
    rw [List.foldl_cons]
    by_cases hk : k ∈ acc
    · rw [if_pos hk]; exact ih acc h
    · rw [if_neg hk]
      refine ih _ ?_
      rw [List.nodup_append]
      exact ⟨h, List.nodup_singleton _, fun a ha hb => by
        rw [List.mem_singleton] at hb
        exact hk (hb ▸ ha)⟩

theorem firstSeenKeys_mem (ps : List Product) (x : List Char) :
    x ∈ firstSeenKeys ps ↔ x ∈ ps.map keyOf := by
  rw [firstSeenKeys, foldl_ins_mem]
  simp

theorem firstSeenKeys_nodup (ps : List Product) : (firstSeenKeys ps).Nodup :=
  foldl_ins_nodup _ _ (List.nodup_nil)

theorem firstSeenKeys_append (ps : List Product) (p : Product) :
    firstSeenKeys (ps ++ [p]) =
      if keyOf p ∈ firstSeenKeys ps then firstSeenKeys ps
      else firstSeenKeys ps ++ [keyOf p] := by
  rw [firstSeenKeys, List.map_append, List.foldl_append]
  rfl

theorem membersOf_append_ne (ps : List Product) (p : Product) (k : List Char)
    (h : keyOf p ≠ k) : membersOf (ps ++ [p]) k = membersOf ps k := by
  have hb : (keyOf p == k) = false := beq_eq_false_iff_ne.mpr h
  rw [membersOf, membersOf, List.filter_append]
  simp [List.filter_cons, hb]

theorem membersOf_append_eq (ps : List Product) (p : Product) :
    membersOf (ps ++ [p]) (keyOf p) = membersOf ps (keyOf p) ++ [toInfo p] := by
  rw [membersOf, membersOf, List.filter_append]
  simp [List.filter_cons]

theorem repTitleOf_append_ne (ps : List Product) (p : Product) (k : List Char)
    (h : keyOf p ≠ k) : repTitleOf (ps ++ [p]) k = repTitleOf ps k := by
  have hb : (keyOf p == k) = false := beq_eq_false_iff_ne.mpr h
  rw [repTitleOf, repTitleOf, List.filter_append]
  simp [List.filter_cons, hb]

theorem filter_ne_nil_of_mem_keys (ps : List Product) (k : List Char)
    (hk : k ∈ ps.map keyOf) : (ps.filter fun p => keyOf p == k) ≠ [] := by
  rcases List.mem_map.mp hk with ⟨q, hq, rfl⟩
  intro hnil
  have hmem : q ∈ ps.filter fun p => keyOf p == keyOf q :=
    List.mem_filter.mpr ⟨hq, by simp⟩
  rw [hnil] at hmem
  cases hmem

theorem repTitleOf_append_of_mem (ps : List Product) (p : Product) (k : List Char)
    (hk : k ∈ ps.map keyOf) :
    repTitleOf (ps ++ [p]) k = repTitleOf ps k := by
  rw [repTitleOf, repTitleOf, List.filter_append]
  cases hf : ps.filter fun q => keyOf q == k with
  | nil => exact absurd hf (filter_ne_nil_of_mem_keys ps k hk)
  | cons q rest => simp

theorem filter_eq_nil_of_not_mem (ps : List Product) (k : List Char)
    (hk : k ∉ ps.map keyOf) :
    ps.filter (fun p => keyOf p == k) = [] := by
  refine List.filter_eq_nil_iff.mpr fun p hp hbeq => ?_
  have : keyOf p = k := by simpa using hbeq
  exact hk (this ▸ List.mem_map_of_mem keyOf hp)

theorem addProduct_not_mem (key : List Char) (info : ProductInfo) (title : List Char) :
    ∀ m : List (List Char × RawCategory), (∀ e ∈ m, e.1 ≠ key) →
      addProduct key info title m = m ++ [(key, ⟨title, [info]⟩)] := by
  intro m
  induction m with
  | nil => intro _; rfl
  | cons kb rest ih =>
    intro h
    obtain ⟨k, b⟩ := kb
    rw [addProduct, if_neg (h (k, b) (List.mem_cons_self _ _)),
      ih fun e he => h e (List.mem_cons_of_mem _ he), List.cons_append]

theorem addProduct_found (key : List Char) (info : ProductInfo) (title : List Char) :
    ∀ (m₁ : List (List Char × RawCategory)) (b : RawCategory)
      (m₂ : List (List Char × RawCategory)), (∀ e ∈ m₁, e.1 ≠ key) →
      addProduct key info title (m₁ ++ (key, b) :: m₂) =
        m₁ ++ (key, ⟨b.category, b.products ++ [info]⟩) :: m₂ := by
  intro m₁
  induction m₁ with
  | nil =>
    intro b m₂ _
    rw [List.nil_append, addProduct, if_pos rfl, List.nil_append]
  | cons kb rest ih =>
    intro b m₂ h
    obtain ⟨k, b'⟩ := kb
    rw [List.cons_append, addProduct, if_neg (h (k, b') (List.mem_cons_self _ _)),
      ih b m₂ fun e he => h e (List.mem_cons_of_mem _ he), List.cons_append]

theorem mem_split_first {k : List Char} :
    ∀ {K : List (List Char)}, k ∈ K → ∃ K₁ K₂, K = K₁ ++ k :: K₂ ∧ k ∉ K₁ := by
  intro K
  induction K with
  | nil => intro h; cases h
  | cons a rest ih =>
    intro h
    by_cases hak : a = k
    · exact ⟨[], rest, by rw [hak, List.nil_append], by simp⟩
    · have hk : k ∈ rest := by
        rcases List.mem_cons.mp h with rfl | hm
        · exact absurd rfl hak
        · exact hm
      rcases ih hk with ⟨K₁, K₂, heq, hnot⟩
      refine ⟨a :: K₁, K₂, by rw [heq, List.cons_append], ?_⟩
      intro hmem
      rcases List.mem_cons.mp hmem with rfl | hm
      · exact hak rfl
      · exact hnot hm

theorem categorize_state (ps : List Product) :
    ps.foldl categorizeStep [] =
      (firstSeenKeys ps).map fun k =>
        (k, (⟨repTitleOf ps k, membersOf ps k⟩ : RawCategory)) := by
  induction ps using List.reverseRecOn with
  | nil => rfl
  | append_singleton ps p ih =>
    rw [List.foldl_append, List.foldl_cons, List.foldl_nil, ih, categorizeStep]
    by_cases hmem : keyOf p ∈ firstSeenKeys ps
    · obtain ⟨K₁, K₂, hK, hnot⟩ := mem_split_first hmem
      have hnodup := firstSeenKeys_nodup ps
      rw [hK] at hnodup
      have hnotK₂ : keyOf p ∉ K₂ := (List.nodup_cons.mp hnodup.of_append_right).1
      have hentries : ∀ e ∈ K₁.map fun k =>
          (k, (⟨repTitleOf ps k, membersOf ps k⟩ : RawCategory)), e.1 ≠ keyOf p := by
        intro e he
        rcases List.mem_map.mp he with ⟨k, hk, rfl⟩
        intro hcontra
        exact hnot (hcontra ▸ hk)
      rw [hK, List.map_append, List.map_cons]
      rw [addProduct_found (keyOf p) (toInfo p) p.title _ _ _ hentries]
      rw [firstSeenKeys_append, if_pos hmem, hK, List.map_append, List.map_cons]
      congr 1
      · apply List.map_congr_left
        intro k hk
        have hne : keyOf p ≠ k := fun h => hnot (h ▸ hk)
        rw [membersOf_append_ne ps p k hne, repTitleOf_append_ne ps p k hne]
      · congr 1
        · have hmem' : keyOf p ∈ ps.map keyOf := (firstSeenKeys_mem ps _).mp hmem
          rw [membersOf_append_eq, repTitleOf_append_of_mem ps p _ hmem']
        · apply List.map_congr_left
          intro k hk
          have hne : keyOf p ≠ k := fun h => hnotK₂ (h ▸ hk)
          rw [membersOf_append_ne ps p k hne, repTitleOf_append_ne ps p k hne]
    · have hentries : ∀ e ∈ (firstSeenKeys ps).map fun k =>
          (k, (⟨repTitleOf ps k, membersOf ps k⟩ : RawCategory)), e.1 ≠ keyOf p := by
        intro e he
        rcases List.mem_map.mp he with ⟨k, hk, rfl⟩
        intro hcontra
        exact hmem (hcontra ▸ hk)
      rw [addProduct_not_mem _ _ _ _ hentries]
      rw [firstSeenKeys_append, if_neg hmem, List.map_append]
      congr 1
      · apply List.map_congr_left
        intro k hk
        have hnek : keyOf p ≠ k := fun h => hmem (h ▸ hk)
        rw [membersOf_append_ne ps p k hnek, repTitleOf_append_ne ps p k hnek]
      · have hfil : ps.filter (fun q => keyOf q == keyOf p) = [] :=
          filter_eq_nil_of_not_mem ps _ fun h => hmem ((firstSeenKeys_mem ps _).mpr h)
        have hm : membersOf (ps ++ [p]) (keyOf p) = [toInfo p] := by
          rw [membersOf, List.filter_append, hfil, List.nil_append]
          simp [List.filter_cons]
        have hr : repTitleOf (ps ++ [p]) (keyOf p) = p.title := by
          rw [repTitleOf, List.filter_append, hfil, List.nil_append]
          simp [List.filter_cons]
        rw [List.map_cons, List.map_nil, hm, hr]

/-- C5: `categorizeProducts` emits categories in first-seen-key order, each
with the members of that key in input order, count equal to the member
count and the original title of the first record of the key as
representative (the `categoryFor` characterization); in particular on
records `[A, B, A']` with `A` and `A'` sharing a key and `B` a different
key, that category's members are `[A, A']` with `A`'s title as
representative. -/
theorem claim_C5_order (ps : List Product) (A B A' : Product)
    (h1 : keyOf A' = keyOf A) (h2 : keyOf B ≠ keyOf A) :
    categorizeProducts ps = (firstSeenKeys ps).map (categoryFor ps) ∧
    categorizeProducts [A, B, A'] =
      [⟨A.title, 2, [toInfo A, toInfo A']⟩, ⟨B.title, 1, [toInfo B]⟩] := by
  have hchar : ∀ qs : List Product,
      categorizeProducts qs = (firstSeenKeys qs).map (categoryFor qs) := by
    intro qs
    rw [categorizeProducts, categorize_state, List.map_map]
    apply List.map_congr_left
    intro k _
    rfl
  refine ⟨hchar ps, ?_⟩
  rw [hchar [A, B, A']]
  have hK : firstSeenKeys [A, B, A'] = [keyOf A, keyOf B] := by
    rw [firstSeenKeys]
    rw [show List.map keyOf [A, B, A'] = [keyOf A, keyOf B, keyOf A'] from rfl]
    rw [List.foldl_cons, if_neg (List.not_mem_nil _), List.nil_append]
    rw [List.foldl_cons, if_neg (by simp [h2]), List.singleton_append]
    rw [List.foldl_cons, h1, if_pos (List.mem_cons_self _ _), List.foldl_nil]
  have hbA : (keyOf B == keyOf A) = false := beq_eq_false_iff_ne.mpr h2
  have hbB : (keyOf A == keyOf B) = false := beq_eq_false_iff_ne.mpr (Ne.symm h2)
  have hfA : [A, B, A'].filter (fun q => keyOf q == keyOf A) = [A, A'] := by
    simp [List.filter_cons, hbA, h1]
  have hfB : [A, B, A'].filter (fun q => keyOf q == keyOf B) = [B] := by
    simp [List.filter_cons, hbB, h1]
  have hmA : membersOf [A, B, A'] (keyOf A) = [toInfo A, toInfo A'] := by
    rw [membersOf, hfA]; rfl
  have hrA : repTitleOf [A, B, A'] (keyOf A) = A.title := by
    rw [repTitleOf, hfA]
  have hmB : membersOf [A, B, A'] (keyOf B) = [toInfo B] := by
    rw [membersOf, hfB]; rfl
  have hrB : repTitleOf [A, B, A'] (keyOf B) = B.title := by
    rw [repTitleOf, hfB]
  rw [hK, List.map_cons, List.map_cons, List.map_nil]
  rw [categoryFor, categoryFor, hmA, hrA, hmB, hrB]
  rfl

/-- Witness for C5 on the spec's milk/rice example. -/
theorem claim_C5_order_witness :
    categorizeProducts
      [⟨("Leite Integral Piracanjuba 1L").toList, ("X").toList, 0⟩,
       ⟨("Arroz Branco Tio João 5kg").toList, ("X").toList, 1⟩,
       ⟨("LEITE INTEGRAL PIRACANJUBA 1l").toList, ("Y").toList, 2⟩] =
      [⟨("Leite Integral Piracanjuba 1L").toList, 2,
         [⟨("Leite Integral Piracanjuba 1L").toList, ("X").toList⟩,
          ⟨("LEITE INTEGRAL PIRACANJUBA 1l").toList, ("Y").toList⟩]⟩,
       ⟨("Arroz Branco Tio João 5kg").toList, 1,
         [⟨("Arroz Branco Tio João 5kg").toList, ("X").toList⟩]⟩] :=
  (claim_C5_order [] _ _ _ (by decide) (by decide)).2

end Categorizador
